import Mathlib

/-!
Shallow embedding of the byte-dump engine of `src/bin/od.rs` (an od(1)
implementation).  Pure Rust functions become Lean functions on `List Nat`
(bytes) and `List Char` (strings); `u64` arithmetic that can overflow is
taken modulo `2 ^ 64`; fallible parsing returns `Option`.  Output lines are
modelled as `String`s (the trailing newline written by `writeln!` is left
implicit in the one-line-per-list-entry representation).
-/

namespace OdSpec

/-- Digits of `n` in base `b`, most significant first, by fuelled recursion
(`fuel = n + 1` always suffices for `b ≥ 2`).  `Nat.digitChar` yields
`0`-`9` then lowercase `a`-`f`, matching Rust's `{:o}`, `{}` and `{:x}`
numeric formatting. -/
def natDigitsGo (b : Nat) : Nat → Nat → List Char
  | 0, _ => []
  | fuel + 1, n =>
    if n < b then [Nat.digitChar n]
    else natDigitsGo b fuel (n / b) ++ [Nat.digitChar (n % b)]

/-- Textual numeral of `n` in base `b` (no padding), as produced by Rust's
numeric formatting for bases 8, 10 and 16. -/
def natStr (b n : Nat) : String := String.mk (natDigitsGo b (n + 1) n)

/-- Left-pad `s` with copies of `c` to width `w`; never truncates.  This is
the semantics of Rust's `{:0w}` (with `c = '0'`) and `{:>w}` / `{:w}`
(with `c = ' '`) format padding. -/
def padChar (c : Char) (w : Nat) (s : String) : String :=
  String.mk (List.replicate (w - s.length) c) ++ s

/-- Rust `{:03o}`: 3-digit zero-padded octal. -/
def octPad3 (n : Nat) : String := padChar '0' 3 (natStr 8 n)

/-- Rust `{:06o}`: 6-digit zero-padded octal (octal word numeral). -/
def fmtOct6 (n : Nat) : String := padChar '0' 6 (natStr 8 n)

/-- Rust `{:5}`: decimal right-justified in 5 columns with spaces. -/
def fmtDec5 (n : Nat) : String := padChar ' ' 5 (natStr 10 n)

/-- Rust `{:04x}`: 4-digit zero-padded lowercase hexadecimal. -/
def fmtHex4 (n : Nat) : String := padChar '0' 4 (natStr 16 n)

/-- Rust `{:07o}`: the 7-digit zero-padded octal offset label. -/
def octPad7 (n : Nat) : String := padChar '0' 7 (natStr 8 n)

/-- The 7-blank label written for every non-first encoder line of a chunk
(`write!(writer, "       ")`). -/
def blank7 : String := "       "

/-- Rust `{:>w}`: right-justify a string in `w` columns with spaces. -/
def rjust (w : Nat) (s : String) : String := padChar ' ' w s

/-! ## Offset-specifier parsing (`parse_offset`, od.rs lines 122-143) -/

/-- Rust `char::to_digit(radix)` for `radix ≤ 16`: numeric value of a digit
character, accepting `0`-`9` and both letter cases, rejected when the value
is not below the radix. -/
def digitVal? (c : Char) (r : Nat) : Option Nat :=
  let v : Option Nat :=
    if '0' ≤ c ∧ c ≤ '9' then some (c.toNat - '0'.toNat)
    else if 'a' ≤ c ∧ c ≤ 'f' then some (c.toNat - 'a'.toNat + 10)
    else if 'A' ≤ c ∧ c ≤ 'F' then some (c.toNat - 'A'.toNat + 10)
    else none
  match v with
  | some d => if d < r then some d else none
  | none => none

/-- Rust's unsigned integer parser accepts one optional leading `+` sign
(a `-` is just an invalid digit for `u64`). -/
def stripPlus (s : List Char) : List Char :=
  match s with
  | c :: rest => if c = '+' then rest else s
  | [] => s

/-- Accumulate digit characters left to right, failing on the first
character that is not a digit of radix `r`. -/
def parseDigitsGo (r : Nat) : List Char → Nat → Option Nat
  | [], acc => some acc
  | c :: cs, acc =>
    match digitVal? c r with
    | some d => parseDigitsGo r cs (acc * r + d)
    | none => none

/-- One past the largest `u64` value. -/
def U64 : Nat := 2 ^ 64

/-- Mathematical value of a digit string in radix `r` (digits assumed
valid; an invalid character contributes its `getD` default and is only
ever used under an all-digits hypothesis). -/
def digitsVal (r : Nat) (cs : List Char) : Nat :=
  cs.foldl (fun a c => a * r + ((digitVal? c r).getD 0)) 0

/-- Digit-run part of `u64::from_str_radix`: a non-empty run of radix-`r`
digits whose value fits in `u64`; every other input is a `ParseIntError`
(`none`).  Rust checks overflow after each accumulation step; since
accumulation is monotone this is the same as one final bound check. -/
def coreParse (ds : List Char) (r : Nat) : Option Nat :=
  if ds = [] then none
  else
    match parseDigitsGo r ds 0 with
    | some v => if v < U64 then some v else none
    | none => none

/-- See `coreParse`; the sign is consumed before the digit run. -/
def from_str_radix (s : List Char) (r : Nat) : Option Nat :=
  coreParse (stripPlus s) r

/-- The `(s, r)` and `mult` selection of `parse_offset` (od.rs 123-137):
scan the specifier from the end; a trailing `b` sets the 512 multiplier
and looks one more character back for a `.` (decimal) marker; a trailing
`.` alone selects decimal; otherwise the whole string is octal.  Returns
(digit substring, radix, multiplier). -/
def offsetParts (offstr : List Char) : List Char × Nat × Nat :=
  match offstr.reverse with
  | [] => ([], 8, 1)
  | c :: rest =>
    if c = 'b' then
      match rest with
      | [] => ([], 8, 512)
      | c2 :: rest2 => if c2 = '.' then (rest2.reverse, 10, 512) else (rest.reverse, 8, 512)
    else if c = '.' then (rest.reverse, 10, 1)
    else (offstr, 8, 1)

/-- Embedding of `parse_offset` (od.rs 122-143).  The final `n * mult`
is `u64` multiplication, which wraps modulo `2 ^ 64` in a release build. -/
def parse_offset (offstr : List Char) : Option Nat :=
  let p := offsetParts offstr
  (from_str_radix p.1 p.2.1).map (fun n => n * p.2.2 % U64)

/-! ## Encoders (od.rs lines 21-113) -/

/-- Rust's `data.chunks(2)`: split a byte slice into consecutive pairs,
the last group possibly a single byte.  Groups are never empty. -/
def chunksPairs : List Nat → List (List Nat)
  | [] => []
  | [a] => [[a]]
  | a :: b :: rest => [a, b] :: chunksPairs rest

/-- The value formatted by the `write_word!` macro (od.rs 36-45): a single
trailing byte is widened (`u16::from(word[0])`), a pair is combined
little-endian as `word[1] << 8 | word[0]`.  `chunks(2)` never yields an
empty group, so the `[]` case is arbitrary. -/
def wordVal16 : List Nat → Nat
  | [b0] => b0
  | b0 :: b1 :: _ => (b1 <<< 8) ||| b0
  | [] => 0

/-- The text one `write_word!` invocation appends: a separating space, then
the numeral right-justified in `width` columns. -/
def writeWord (fmtN : Nat → String) (width : Nat) (w : List Nat) : String :=
  " " ++ rjust width (fmtN (wordVal16 w))

/-- Embedding of `write_oct_bytes` (od.rs 22-33): each byte of each pair as
space-separated 3-digit zero-padded octal; ignores the width argument. -/
def write_oct_bytes (data : List Nat) (_ : Nat) : String :=
  String.join ((chunksPairs data).map fun w =>
    match w with
    | [a] => " " ++ octPad3 a
    | a :: b :: _ => " " ++ octPad3 a ++ " " ++ octPad3 b
    | [] => "")

/-- Embedding of `write_oct_words` (od.rs 49-56). -/
def write_oct_words (data : List Nat) (width : Nat) : String :=
  String.join ((chunksPairs data).map (writeWord fmtOct6 width))

/-- Embedding of `write_dec_words` (od.rs 60-67). -/
def write_dec_words (data : List Nat) (width : Nat) : String :=
  String.join ((chunksPairs data).map (writeWord fmtDec5 width))

/-- Embedding of `write_hex_words` (od.rs 71-78). -/
def write_hex_words (data : List Nat) (width : Nat) : String :=
  String.join ((chunksPairs data).map (writeWord fmtHex4 width))

/-- Embedding of `write_ascii_char` (od.rs 96-113): bytes 7-13 as the named
escapes, other non-printables as space plus 3-digit octal, printables as
three spaces plus the literal character (`byte as char` is the Unicode
scalar of the byte value, i.e. `Char.ofNat`). -/
def write_ascii_char (b : Nat) : String :=
  match b with
  | 7 => "  \\g"
  | 8 => "  \\b"
  | 9 => "  \\t"
  | 10 => "  \\n"
  | 11 => "  \\v"
  | 12 => "  \\f"
  | 13 => "  \\r"
  | _ =>
    if ¬ (32 ≤ b ∧ b ≤ 126) then " " ++ octPad3 b
    else "   " ++ String.singleton (Char.ofNat b)

/-- Embedding of `write_ascii_chars` (od.rs 82-92): iterate the pairs,
rendering the first byte and, when present, the second. -/
def write_ascii_chars (data : List Nat) (_ : Nat) : String :=
  String.join ((chunksPairs data).map fun w =>
    match w with
    | [a] => write_ascii_char a
    | a :: b :: _ => write_ascii_char a ++ write_ascii_char b
    | [] => "")

/-- The closed family of output formats `main` can select (`-b -c -d -x -o`),
each carried as a `FmtFn` function pointer in the Rust code. -/
inductive Fmt
  | OctalBytes
  | AsciiChars
  | DecimalWords
  | HexWords
  | OctalWords
deriving DecidableEq, Repr

/-- Dispatch a format tag to its encoder (line fragment, newline omitted). -/
def renderFmt : Fmt → List Nat → Nat → String
  | .OctalBytes => write_oct_bytes
  | .AsciiChars => write_ascii_chars
  | .DecimalWords => write_dec_words
  | .HexWords => write_hex_words
  | .OctalWords => write_oct_words

/-! ## The od read loop (od.rs lines 168-203) -/

/-- Rust's `CHUNK_SIZE` (od.rs 115). -/
def CHUNK_SIZE : Nat := 16

/-- Fuelled splitting of the remaining input into 16-byte read results;
`fuel ≥ l.length` always suffices since a step consumes at least one byte.
A read of 0 bytes (empty remainder) ends the sequence with no chunk. -/
def readChunksGo : Nat → List Nat → List (List Nat)
  | _, [] => []
  | 0, _ :: _ => []
  | fuel + 1, a :: as => ((a :: as).take CHUNK_SIZE) :: readChunksGo fuel ((a :: as).drop CHUNK_SIZE)

/-- The sequence of chunks the read loop of `od` processes for a given
remaining input: full 16-byte reads, then one short final read (if the
length is not a multiple of 16), then the 0-byte read that stops the loop. -/
def readChunks (l : List Nat) : List (List Nat) := readChunksGo l.length l

/-- The chunks `od filename offset` processes: the input bytes after seeking
to `offset` (a seek past end-of-file reads nothing). -/
def odChunks (file : List Nat) (offset : Nat) : List (List Nat) :=
  readChunks (file.drop offset)

/-- Lines emitted for one chunk (od.rs 184-193): one line per selected
encoder in configured order; the first carries the 7-digit zero-padded
octal offset label, the others 7 blanks. -/
def chunkLines (offset : Nat) (chunk : List Nat) (fmts : List Fmt) (width : Nat) : List String :=
  match fmts with
  | [] => []
  | f :: rest =>
    (octPad7 offset ++ renderFmt f chunk width)
      :: rest.map (fun g => blank7 ++ renderFmt g chunk width)

/-- The loop body of `od` over the chunk sequence: after each chunk the
running offset advances by `chunk.len()` — the length of the fixed 16-byte
buffer (od.rs 194), not the number of bytes read — and after the last chunk
a closing line with only the offset label is written (od.rs 201).  The
offset is a `u64` in the source; its wrap-around would need more than
`2 ^ 60` chunks from one stream, so the counter is modelled as `Nat`. -/
def odGo (fmts : List Fmt) (width : Nat) : List (List Nat) → Nat → List String
  | [], offset => [octPad7 offset]
  | c :: cs, offset => chunkLines offset c fmts width ++ odGo fmts width cs (offset + CHUNK_SIZE)

/-- Embedding of `od` (od.rs 169-203) as the list of output lines for a
given input byte sequence (I/O errors are out of scope of this model). -/
def odLines (file : List Nat) (offset : Nat) (fmts : List Fmt) (width : Nat) : List String :=
  odGo fmts width (odChunks file offset) offset

/-! ## main's configuration logic (od.rs lines 205-286) -/

/-- The minimum column width `main` enforces for each selected flag
(od.rs 219-248): `-b` 7, `-c` 7, `-d` 5, `-x` 4, `-o` 6. -/
def optMinWidth : Fmt → Nat
  | .OctalBytes => 7
  | .AsciiChars => 7
  | .DecimalWords => 5
  | .HexWords => 4
  | .OctalWords => 6

/-- The shared width accumulated over the selected formats in flag order:
starting from 0, each flag raises the width to its minimum if the current
width is smaller (`if width < k { width = k }`). -/
def computeWidth (sels : List Fmt) : Nat :=
  sels.foldl (fun w f => if w < optMinWidth f then optMinWidth f else w) 0

/-- Selected formats and width after the defaulting step (od.rs 268-272):
an empty selection becomes `[OctalWords]` with width 6. -/
def effectiveConfig (sels : List Fmt) : List Fmt × Nat :=
  if sels = [] then ([Fmt.OctalWords], 6) else (sels, computeWidth sels)

/-- Offset resolution in `main` (od.rs 274-277): a parse failure prints a
diagnostic (the `Bool`) and leaves the offset at its initial value 0. -/
def resolveOffset (offstr : List Char) : Nat × Bool :=
  match parse_offset offstr with
  | some off => (off, false)
  | none => (0, true)

/-- The dump `main` performs: resolve configuration defaults and the offset
specifier, then run `od`; the `Bool` records whether an offset diagnostic
was printed. -/
def mainDump (offstr : List Char) (file : List Nat) (sels : List Fmt) : List String × Bool :=
  let cfg := effectiveConfig sels
  let off := resolveOffset offstr
  (odLines file off.1 cfg.1 cfg.2, off.2)

/-- Exit status of `main` (od.rs 279-285): 0 when the dump succeeded,
1 when it failed; an offset-parse diagnostic does not affect it. -/
def mainExitCode (dumpOk : Bool) : Nat := if dumpOk then 0 else 1

/-! ## Spec-side definitions

Modelled from the spec, section 4.1: used only to state claims C2 and C3,
which quantify over "specifiers matching the grammar" and over the "digit
substring selected by the suffix rules".  The spec strips the optional
leading `+` first and then applies the same trailing-character rules as the
code, so the substring/radix/multiplier selection is `offsetParts` after
`stripPlus`. -/

/-- Digit substring, radix and multiplier of a specifier according to the
spec's suffix rules (leading `+` stripped first). -/
def specParts (s : List Char) : List Char × Nat × Nat :=
  offsetParts (stripPlus s)

/-- Whether `c` is a digit of radix `r`. -/
def isDigitOf (r : Nat) (c : Char) : Bool := (digitVal? c r).isSome

/-- The spec's offset grammar: optional leading `+`, then a non-empty digit
substring valid in the radix the suffix rules resolve. -/
def specGrammar (s : List Char) : Bool :=
  let p := specParts s
  decide (p.1 ≠ []) && p.1.all (isDigitOf p.2.1)

/-- Value of the digit substring of a specifier in its resolved radix. -/
def specDigitsVal (s : List Char) : Nat :=
  digitsVal (specParts s).2.1 (specParts s).1

/-- The multiplier the suffix rules resolve (512 for a trailing `b`). -/
def specMult (s : List Char) : Nat := (specParts s).2.2

/-! ## Lemmas about the offset parser -/

theorem stripPlus_of_head_ne (s : List Char) (h : s.head? ≠ some '+') :
    stripPlus s = s := by
  cases s with
  | nil => rfl
  | cons c rest =>
    have hc : c ≠ '+' := by
      intro hc
      exact h (by simp [hc])
    simp [stripPlus, hc]

theorem offsetParts_plus (t : List Char) :
    offsetParts ('+' :: t) =
      ('+' :: (offsetParts t).1, (offsetParts t).2.1, (offsetParts t).2.2) := by
  cases ht : t.reverse with
  | nil =>
    have h0 : t = [] := by simpa using congrArg List.reverse ht
    subst h0
    decide
  | cons c rest =>
    have hrev : ('+' :: t).reverse = c :: (rest ++ ['+']) := by
      simp [List.reverse_cons, ht]
    by_cases hb : c = 'b'
    · subst hb
      cases rest with
      | nil => simp [offsetParts, ht, hrev]
      | cons c2 rest2 =>
        by_cases hdot : c2 = '.'
        · subst hdot
          simp [offsetParts, ht, hrev, List.reverse_append]
        · simp [offsetParts, ht, hrev, hdot, List.reverse_append]
    · by_cases hd : c = '.'
      · subst hd
        simp [offsetParts, ht, hrev, hb, List.reverse_append]
      · simp [offsetParts, ht, hrev, hb, hd]

theorem offsetParts_sub_head (s : List Char) :
    (offsetParts s).1 = [] ∨ (offsetParts s).1.head? = s.head? := by
  cases hs : s.reverse with
  | nil => left; simp [offsetParts, hs]
  | cons c rest =>
    have hsl : s = rest.reverse ++ [c] := by simpa using congrArg List.reverse hs
    by_cases hb : c = 'b'
    · cases rest with
      | nil => left; simp [offsetParts, hs, hb]
      | cons c2 rest2 =>
        by_cases hdot : c2 = '.'
        · cases hr2 : rest2.reverse with
          | nil => left; simp [offsetParts, hs, hb, hdot, hr2]
          | cons d ds =>
            right
            rw [hsl]
            simp [offsetParts, hs, hb, hdot, hr2, List.reverse_cons]
        · right
          rw [hsl]
          cases hr2 : rest2.reverse with
          | nil =>
            have : rest2 = [] := by simpa using congrArg List.reverse hr2
            subst this
            simp [offsetParts, hs, hb, hdot]
          | cons d ds =>
            simp [offsetParts, hs, hb, hdot, hr2, List.reverse_cons]
    · by_cases hd : c = '.'
      · cases hq : rest.reverse with
        | nil => left; simp [offsetParts, hs, hb, hd, hq]
        | cons d ds =>
          right
          rw [hsl]
          simp [offsetParts, hs, hb, hd, hq]
      · right
        simp [offsetParts, hs, hb, hd]

theorem offsetParts_stripPlus (s : List Char) :
    (offsetParts (stripPlus s)).1 = stripPlus ((offsetParts s).1)
    ∧ (offsetParts (stripPlus s)).2 = (offsetParts s).2 := by
  cases s with
  | nil => exact ⟨rfl, rfl⟩
  | cons c rest =>
    by_cases hc : c = '+'
    · subst hc
      have h1 : stripPlus ('+' :: rest) = rest := by simp [stripPlus]
      rw [h1, offsetParts_plus]
      exact ⟨by simp [stripPlus], rfl⟩
    · have h1 : stripPlus (c :: rest) = c :: rest := by simp [stripPlus, hc]
      rw [h1]
      refine ⟨?_, rfl⟩
      rcases offsetParts_sub_head (c :: rest) with h | h
      · rw [h]; rfl
      · rw [stripPlus_of_head_ne]
        rw [h]
        simp only [List.head?_cons, ne_eq, Option.some.injEq]
        exact hc

theorem parseDigitsGo_all (r : Nat) (cs : List Char) (acc : Nat)
    (h : cs.all (isDigitOf r) = true) :
    parseDigitsGo r cs acc =
      some (cs.foldl (fun a c => a * r + ((digitVal? c r).getD 0)) acc) := by
  induction cs generalizing acc with
  | nil => rfl
  | cons c cs ih =>
    simp only [List.all_cons, Bool.and_eq_true] at h
    obtain ⟨hc, hcs⟩ := h
    obtain ⟨d, hd⟩ := Option.isSome_iff_exists.mp hc
    simp [parseDigitsGo, hd, ih _ hcs]

theorem parseDigitsGo_not_all (r : Nat) (cs : List Char) (acc : Nat)
    (h : cs.all (isDigitOf r) = false) :
    parseDigitsGo r cs acc = none := by
  induction cs generalizing acc with
  | nil => simp at h
  | cons c cs ih =>
    cases hdv : digitVal? c r with
    | none => simp [parseDigitsGo, hdv]
    | some d =>
      have hcs : cs.all (isDigitOf r) = false := by
        simp only [List.all_cons, Bool.and_eq_false_iff] at h
        rcases h with h | h
        · exact absurd h (by simp [isDigitOf, hdv])
        · exact h
      simp [parseDigitsGo, hdv, ih _ hcs]

theorem coreParse_all (ds : List Char) (r : Nat) (hne : ds ≠ [])
    (h : ds.all (isDigitOf r) = true) :
    coreParse ds r =
      if digitsVal r ds < U64 then some (digitsVal r ds) else none := by
  unfold coreParse
  rw [if_neg hne, parseDigitsGo_all r ds 0 h]
  simp [digitsVal]

theorem coreParse_not_all (ds : List Char) (r : Nat)
    (h : ds.all (isDigitOf r) = false) : coreParse ds r = none := by
  unfold coreParse
  by_cases hne : ds = []
  · rw [if_pos hne]
  · rw [if_neg hne, parseDigitsGo_not_all r ds 0 h]

theorem coreParse_none_iff (ds : List Char) (r : Nat) :
    coreParse ds r = none ↔
      (ds = [] ∨ ds.all (isDigitOf r) = false ∨ U64 ≤ digitsVal r ds) := by
  by_cases hne : ds = []
  · subst hne
    simp [coreParse]
  · cases hall : ds.all (isDigitOf r) with
    | false => simp [coreParse_not_all _ _ hall, hne, hall]
    | true =>
      rw [coreParse_all ds r hne hall]
      by_cases hv : digitsVal r ds < U64
      · simp [hv, hne, hall]
        try omega
      · simp [hv, hne, hall]
        try omega

theorem parse_offset_eq_spec (s : List Char) :
    parse_offset s =
      (coreParse (specParts s).1 (specParts s).2.1).map
        (fun n => n * (specParts s).2.2 % U64) := by
  have h := offsetParts_stripPlus s
  have h2a : (offsetParts (stripPlus s)).2.1 = (offsetParts s).2.1 := by rw [h.2]
  have h2b : (offsetParts (stripPlus s)).2.2 = (offsetParts s).2.2 := by rw [h.2]
  simp only [parse_offset, from_str_radix, specParts, h.1, h2a, h2b]

/-! ## Lemmas about the read loop -/

theorem readChunksGo_fuel (f : Nat) :
    ∀ (g : Nat) (l : List Nat), l.length ≤ f → l.length ≤ g →
      readChunksGo f l = readChunksGo g l := by
  induction f with
  | zero =>
    intro g l hf _
    have h0 : l = [] := by
      cases l with
      | nil => rfl
      | cons a as => simp at hf
    subst h0
    cases g <;> rfl
  | succ f ih =>
    intro g l hf hg
    cases l with
    | nil => cases g <;> rfl
    | cons a as =>
      cases g with
      | zero => simp at hg
      | succ g =>
        simp only [readChunksGo]
        congr 1
        apply ih
        · simp only [List.length_drop, List.length_cons, CHUNK_SIZE] at *
          omega
        · simp only [List.length_drop, List.length_cons, CHUNK_SIZE] at *
          omega

theorem readChunks_cons (a : Nat) (as : List Nat) :
    readChunks (a :: as) =
      (a :: as).take CHUNK_SIZE :: readChunks ((a :: as).drop CHUNK_SIZE) := by
  show readChunksGo (a :: as).length (a :: as) = _
  simp only [List.length_cons, readChunksGo]
  congr 1
  apply readChunksGo_fuel
  · simp only [List.length_drop, List.length_cons, CHUNK_SIZE]
    omega
  · exact Nat.le_refl _

theorem readChunks_nil : readChunks [] = [] := rfl

theorem readChunks_eq_nil_iff (l : List Nat) : readChunks l = [] ↔ l = [] := by
  cases l with
  | nil => simp [readChunks_nil]
  | cons a as => rw [readChunks_cons]; simp

theorem readChunks_length_aux :
    ∀ (n : Nat) (l : List Nat), l.length ≤ n →
      (readChunks l).length = (l.length + 15) / 16 := by
  intro n
  induction n with
  | zero =>
    intro l hl
    have h0 : l = [] := by
      cases l with
      | nil => rfl
      | cons a as => simp at hl
    subst h0
    rfl
  | succ n ih =>
    intro l hl
    cases l with
    | nil => rfl
    | cons a as =>
      rw [readChunks_cons]
      have h1 : ((a :: as).drop CHUNK_SIZE).length ≤ n := by
        simp only [List.length_drop, List.length_cons, CHUNK_SIZE]
        simp only [List.length_cons] at hl
        omega
      rw [List.length_cons, ih _ h1]
      simp only [List.length_drop, List.length_cons, CHUNK_SIZE]
      omega

theorem readChunks_length (l : List Nat) :
    (readChunks l).length = (l.length + 15) / 16 :=
  readChunks_length_aux l.length l (Nat.le_refl _)

theorem readChunks_dropLast_aux :
    ∀ (n : Nat) (l : List Nat), l.length ≤ n →
      ∀ c ∈ (readChunks l).dropLast, c.length = CHUNK_SIZE := by
  intro n
  induction n with
  | zero =>
    intro l hl c hc
    have h0 : l = [] := by
      cases l with
      | nil => rfl
      | cons a as => simp at hl
    subst h0
    simp [readChunks_nil] at hc
  | succ n ih =>
    intro l hl c hc
    cases l with
    | nil => simp [readChunks_nil] at hc
    | cons a as =>
      rw [readChunks_cons] at hc
      by_cases hd : (a :: as).drop CHUNK_SIZE = []
      · rw [hd, readChunks_nil] at hc
        simp at hc
      · have hne : readChunks ((a :: as).drop CHUNK_SIZE) ≠ [] := by
          rw [ne_eq, readChunks_eq_nil_iff]
          exact hd
        rw [List.dropLast_cons_of_ne_nil hne] at hc
        rcases List.mem_cons.mp hc with rfl | hc'
        · have hlen : CHUNK_SIZE < (a :: as).length := by
            rw [List.drop_eq_nil_iff] at hd
            omega
          rw [List.length_take]
          omega
        · have h1 : ((a :: as).drop CHUNK_SIZE).length ≤ n := by
            simp only [List.length_drop, List.length_cons, CHUNK_SIZE]
            simp only [List.length_cons] at hl
            omega
          exact ih _ h1 c hc'

theorem readChunks_getLast_aux :
    ∀ (n : Nat) (l : List Nat), l.length ≤ n → l ≠ [] →
      ∃ c, (readChunks l).getLast? = some c ∧
        c.length = (if l.length % CHUNK_SIZE = 0 then CHUNK_SIZE else l.length % CHUNK_SIZE) := by
  intro n
  induction n with
  | zero =>
    intro l hl hne
    cases l with
    | nil => exact absurd rfl hne
    | cons a as => simp at hl
  | succ n ih =>
    intro l hl hne
    cases l with
    | nil => exact absurd rfl hne
    | cons a as =>
      rw [readChunks_cons]
      by_cases hd : (a :: as).drop CHUNK_SIZE = []
      · rw [hd, readChunks_nil]
        refine ⟨(a :: as).take CHUNK_SIZE, rfl, ?_⟩
        have hlen : (a :: as).length ≤ CHUNK_SIZE := List.drop_eq_nil_iff.mp hd
        have hpos : 1 ≤ (a :: as).length := by simp
        rw [List.length_take]
        simp only [CHUNK_SIZE] at *
        split <;> omega
      · have h1 : ((a :: as).drop CHUNK_SIZE).length ≤ n := by
          simp only [List.length_drop, List.length_cons, CHUNK_SIZE]
          simp only [List.length_cons] at hl
          omega
        obtain ⟨c, hc1, hc2⟩ := ih _ h1 hd
        refine ⟨c, ?_, ?_⟩
        · have hne' : readChunks ((a :: as).drop CHUNK_SIZE) ≠ [] := by
            rw [ne_eq, readChunks_eq_nil_iff]
            exact hd
          cases hrc : readChunks ((a :: as).drop CHUNK_SIZE) with
          | nil => exact absurd hrc hne'
          | cons y ys =>
            rw [hrc] at hc1
            rw [List.getLast?_cons_cons]
            exact hc1
        · rw [hc2]
          have hlen : CHUNK_SIZE < (a :: as).length := by
            rw [List.drop_eq_nil_iff] at hd
            omega
          simp only [List.length_drop, CHUNK_SIZE] at *
          have hmod : ((a :: as).length - 16) % 16 = (a :: as).length % 16 := by
            omega
          rw [hmod]

theorem odGo_ne_nil (fmts : List Fmt) (w : Nat) :
    ∀ (cs : List (List Nat)) (o : Nat), odGo fmts w cs o ≠ [] := by
  intro cs
  induction cs with
  | nil => intro o; simp [odGo]
  | cons c cs ih =>
    intro o
    simp only [odGo, ne_eq, List.append_eq_nil]
    intro h
    exact ih _ h.2

theorem odGo_getLast (fmts : List Fmt) (w : Nat) :
    ∀ (cs : List (List Nat)) (o : Nat),
      (odGo fmts w cs o).getLast? = some (octPad7 (o + CHUNK_SIZE * cs.length)) := by
  intro cs
  induction cs with
  | nil => intro o; simp [odGo]
  | cons c cs ih =>
    intro o
    simp only [odGo, List.getLast?_append, ih (o + CHUNK_SIZE), Option.or_some]
    congr 2
    simp only [List.length_cons]
    ring

/-! ## Lemmas about formatting widths -/

theorem computeWidth_eq_max (sels : List Fmt) :
    computeWidth sels = (sels.map optMinWidth).foldl Nat.max 0 := by
  have hstep : (fun (w : Nat) (f : Fmt) => if w < optMinWidth f then optMinWidth f else w)
      = fun (w : Nat) (f : Fmt) => Nat.max w (optMinWidth f) := by
    funext w f
    by_cases h : w < optMinWidth f <;> simp [h] <;> omega
  rw [computeWidth, hstep, List.foldl_map]

theorem join_singleton (s : String) : String.join [s] = s := by
  cases s with
  | mk data => rfl

theorem wordVal16_pair (a b : Nat) (ha : a < 256) :
    wordVal16 [a, b] = a + 256 * b := by
  show (b <<< 8) ||| a = a + 256 * b
  rw [Nat.shiftLeft_eq, Nat.mul_comm]
  rw [← Nat.mul_add_lt_is_or (b := a) (by simpa using ha) b]
  omega

theorem padChar_length (c : Char) (w : Nat) (s : String) (h : s.length ≤ w) :
    (padChar c w s).length = w := by
  simp only [padChar, String.length_append]
  show (List.replicate (w - s.length) c).length + s.length = w
  rw [List.length_replicate]
  omega

theorem natDigitsGo_length_le (k : Nat) :
    ∀ (fuel n : Nat), 1 ≤ k → n < 8 ^ k → (natDigitsGo 8 fuel n).length ≤ k := by
  induction k with
  | zero => intro fuel n h; simp at h
  | succ k ih =>
    intro fuel n _ hn
    cases fuel with
    | zero => simp [natDigitsGo]
    | succ fuel =>
      by_cases hsmall : n < 8
      · simp [natDigitsGo, hsmall]
      · rw [natDigitsGo, if_neg hsmall]
        rw [List.length_append]
        have hk : 1 ≤ k := by
          by_contra hk0
          have : k = 0 := by omega
          subst this
          simp at hn
          omega
        have hdiv : n / 8 < 8 ^ k := by
          rw [Nat.div_lt_iff_lt_mul (by norm_num)]
          calc n < 8 ^ (k + 1) := hn
          _ = 8 ^ k * 8 := by rw [Nat.pow_succ]
        have := ih fuel (n / 8) hk hdiv
        simp only [List.length_cons, List.length_nil]
        omega

theorem octPad7_length (o : Nat) (h : o < 8 ^ 7) : (octPad7 o).length = 7 := by
  apply padChar_length
  show (natDigitsGo 8 (o + 1) o).length ≤ 7
  exact natDigitsGo_length_le 7 (o + 1) o (by omega) h

/-! ## Claim theorems -/

/-- C1: after every chunk the running offset advances by the configured
chunk size 16 (the buffer length), not by the bytes read, so the closing
offset-only line equals the starting offset plus 16 times the number of
chunks; and dumping a 20-byte input with encoder set `[OctalWords]` at
offset 0 emits two data lines (16 then 4 bytes, the second labelled
`0000020`) followed by a closing line `0000040`. -/
theorem od_offset_advances_by_chunk_size :
    (∀ (file : List Nat) (off : Nat) (fmts : List Fmt) (w : Nat),
        (odLines file off fmts w).getLast? =
          some (octPad7 (off + CHUNK_SIZE * (odChunks file off).length)))
    ∧ odLines (List.replicate 20 0) 0 [Fmt.OctalWords] 6 =
        ["0000000 000000 000000 000000 000000 000000 000000 000000 000000",
         "0000020 000000 000000",
         "0000040"] := by
  refine ⟨?_, by decide⟩
  intro file off fmts w
  exact odGo_getLast fmts w (odChunks file off) off

/-- C4: for an input of length `L` read from offset `o`, the loop produces
`ceil((L-o)/16)` chunks; all but the last have exactly 16 bytes, the last
has `(L-o) mod 16` (or 16 for a positive multiple) and is never empty, and
an exhausted input (`o ≥ L`, a 0-byte read) yields no chunk at all. -/
theorem od_chunking :
    ∀ (file : List Nat) (o : Nat),
      (odChunks file o).length = (file.length - o + 15) / 16
      ∧ (∀ c ∈ (odChunks file o).dropLast, c.length = CHUNK_SIZE)
      ∧ (∀ c, (odChunks file o).getLast? = some c →
          c.length = (if (file.length - o) % CHUNK_SIZE = 0 then CHUNK_SIZE
                      else (file.length - o) % CHUNK_SIZE) ∧ c ≠ [])
      ∧ (file.length ≤ o → odChunks file o = []) := by
  intro file o
  have hlen : (file.drop o).length = file.length - o := by simp [List.length_drop]
  refine ⟨?_, ?_, ?_, ?_⟩
  · show (readChunks (file.drop o)).length = _
    rw [readChunks_length, hlen]
  · intro c hc
    exact readChunks_dropLast_aux (file.drop o).length _ (Nat.le_refl _) c hc
  · intro c hc
    by_cases hd : file.drop o = []
    · rw [odChunks, hd, readChunks_nil] at hc
      simp at hc
    · obtain ⟨c2, h1, h2⟩ := readChunks_getLast_aux (file.drop o).length _ (Nat.le_refl _) hd
      rw [odChunks, h1, Option.some.injEq] at hc
      subst hc
      have hpos : 0 < c2.length := by
        rw [h2]
        simp only [CHUNK_SIZE]
        split <;> omega
      refine ⟨by rw [h2, hlen], ?_⟩
      intro hnil
      rw [hnil] at hpos
      simp at hpos
  · intro h
    rw [odChunks, List.drop_eq_nil_of_le h, readChunks_nil]

/-- Witness for C4 at the concrete 20-byte input and offset 0. -/
theorem od_chunking_witness :
    (odChunks (List.replicate 20 0) 0).getLast? = some [0, 0, 0, 0]
    ∧ ([0, 0, 0, 0] : List Nat).length = 4
    ∧ [0, 0, 0, 0] ≠ ([] : List Nat) := by
  have h := od_chunking (List.replicate 20 0) 0
  have h2 := h.2.2.1 [0, 0, 0, 0] (by decide)
  refine ⟨by decide, ?_, h2.2⟩
  rw [h2.1]
  decide

/-- C7: for a non-empty chunk and a selection of `k` encoders, exactly `k`
lines are emitted in configured order; the first carries the 7-digit
zero-padded octal offset label, the others exactly 7 blanks of the same
width. -/
theorem chunk_lines_labels :
    ∀ (o : Nat) (chunk : List Nat) (fmts : List Fmt) (w : Nat),
      chunk ≠ [] → o < 8 ^ 7 →
      (chunkLines o chunk fmts w).length = fmts.length
      ∧ (octPad7 o).length = 7
      ∧ blank7.length = 7
      ∧ (∀ f rest, fmts = f :: rest →
          chunkLines o chunk fmts w =
            (octPad7 o ++ renderFmt f chunk w)
              :: rest.map (fun g => blank7 ++ renderFmt g chunk w))
      ∧ (∀ s ∈ (chunkLines o chunk fmts w).tail,
          ∃ g ∈ fmts, s = blank7 ++ renderFmt g chunk w) := by
  intro o chunk fmts w _ ho
  refine ⟨?_, octPad7_length o ho, by decide, ?_, ?_⟩
  · cases fmts <;> simp [chunkLines]
  · intro f rest hf
    subst hf
    rfl
  · intro s hs
    cases fmts with
    | nil => simp [chunkLines] at hs
    | cons f rest =>
      simp only [chunkLines, List.tail_cons] at hs
      obtain ⟨g, hg, rfl⟩ := List.mem_map.mp hs
      exact ⟨g, List.mem_cons_of_mem _ hg, rfl⟩

/-- Witness for C7 at a concrete chunk, offset and two-encoder selection. -/
theorem chunk_lines_labels_witness :
    (chunkLines 0 [65] [Fmt.OctalWords, Fmt.AsciiChars] 6).length = 2
    ∧ (octPad7 0).length = 7 := by
  have h := chunk_lines_labels 0 [65] [Fmt.OctalWords, Fmt.AsciiChars] 6 (by decide) (by decide)
  exact ⟨h.1, h.2.1⟩

/-- C8: a leading `+` on an offset specifier is permitted and ignored: for
a specifier that does not itself begin with a sign, prepending `+` leaves
the parse result (success value or failure) unchanged. -/
theorem plus_sign_transparent :
    ∀ s : List Char, s.head? ≠ some '+' → s.head? ≠ some '-' →
      parse_offset ('+' :: s) = parse_offset s := by
  intro s h1 _
  rw [parse_offset_eq_spec, parse_offset_eq_spec]
  have hs : stripPlus ('+' :: s) = s := by simp [stripPlus]
  unfold specParts
  rw [hs, stripPlus_of_head_ne s h1]

/-- Witness for C8 at the specifier `100`. -/
theorem plus_sign_transparent_witness :
    parse_offset ('+' :: "100".toList) = parse_offset "100".toList :=
  plus_sign_transparent "100".toList (by decide) (by decide)

/-- C9: when the offset specifier fails to parse, `main` reports a
diagnostic and continues with offset 0 — the dump still runs on the input
from its start — and the exit status is 0 whenever the dump itself
succeeds. -/
theorem offset_parse_failure_continues :
    ∀ (offstr : List Char) (file : List Nat) (sels : List Fmt),
      parse_offset offstr = none →
      resolveOffset offstr = (0, true)
      ∧ mainDump offstr file sels =
          (odLines file 0 (effectiveConfig sels).1 (effectiveConfig sels).2, true)
      ∧ mainExitCode true = 0 := by
  intro offstr file sels h
  have hr : resolveOffset offstr = (0, true) := by
    simp [resolveOffset, h]
  refine ⟨hr, ?_, rfl⟩
  simp [mainDump, hr]

/-- Witness for C9 at the unparsable specifier `xyz`. -/
theorem offset_parse_failure_continues_witness :
    mainDump "xyz".toList [1, 2, 3] [] =
      (odLines [1, 2, 3] 0 (effectiveConfig []).1 (effectiveConfig []).2, true) :=
  (offset_parse_failure_continues "xyz".toList [1, 2, 3] [] (by decide)).2.1

/-- C10: the shared column width is the maximum of the minimum widths of
the selected variants (7/7/5/4/6 for `-b -c -d -x -o`), 6 for the
defaulted empty selection; `od` passes that one width to every selected
encoder, and hex words selected with octal bytes render in width 7. -/
theorem shared_width_max :
    (∀ sels : List Fmt, sels ≠ [] →
        effectiveConfig sels = (sels, (sels.map optMinWidth).foldl Nat.max 0))
    ∧ effectiveConfig [] = ([Fmt.OctalWords], 6)
    ∧ optMinWidth Fmt.OctalBytes = 7 ∧ optMinWidth Fmt.AsciiChars = 7
    ∧ optMinWidth Fmt.DecimalWords = 5 ∧ optMinWidth Fmt.HexWords = 4
    ∧ optMinWidth Fmt.OctalWords = 6
    ∧ (effectiveConfig [Fmt.HexWords, Fmt.OctalBytes]).2 = 7
    ∧ (∀ (offstr : List Char) (file : List Nat) (sels : List Fmt),
        (mainDump offstr file sels).1 =
          odLines file (resolveOffset offstr).1
            (effectiveConfig sels).1 (effectiveConfig sels).2) := by
  refine ⟨?_, by decide, rfl, rfl, rfl, rfl, rfl, by decide, ?_⟩
  · intro sels hs
    simp [effectiveConfig, hs, computeWidth_eq_max]
  · intro offstr file sels
    rfl

/-- Witness for C10 at the singleton hex-words selection. -/
theorem shared_width_max_witness :
    effectiveConfig [Fmt.HexWords] =
      ([Fmt.HexWords], ([Fmt.HexWords].map optMinWidth).foldl Nat.max 0) :=
  shared_width_max.1 [Fmt.HexWords] (by decide)

/-- C2 counterexample: the 22-digit octal specifier of sevens matches the
spec grammar, yet `parse_offset` fails, because its value exceeds
`u64::MAX` and `u64::from_str_radix` reports an overflow error. -/
theorem parse_offset_total_counterexample :
    specGrammar "7777777777777777777777".toList = true
    ∧ parse_offset "7777777777777777777777".toList = none := by
  exact ⟨by decide, by decide⟩

/-- C2 (amended): `parse_offset` is deterministic and total on every
specifier matching the grammar whose digit value fits in `u64`, resolving
radix and multiplier from the suffix, with the four stated examples. -/
theorem parse_offset_total_amended :
    (∀ s : List Char, specGrammar s = true → specDigitsVal s < U64 →
        parse_offset s = some (specDigitsVal s * specMult s % U64))
    ∧ parse_offset "100".toList = some 64
    ∧ parse_offset "100.".toList = some 100
    ∧ parse_offset "100b".toList = some (64 * 512)
    ∧ parse_offset "100.b".toList = some (100 * 512) := by
  refine ⟨?_, by decide, by decide, by decide, by decide⟩
  intro s hg hfit
  rw [parse_offset_eq_spec]
  unfold specGrammar at hg
  simp only [Bool.and_eq_true, decide_eq_true_eq] at hg
  obtain ⟨hne, hall⟩ := hg
  have hfit2 : digitsVal (specParts s).2.1 (specParts s).1 < U64 := hfit
  rw [coreParse_all _ _ hne hall, if_pos hfit2]
  rfl

/-- Witness for C2 (amended) at the specifier `20`. -/
theorem parse_offset_total_amended_witness :
    parse_offset "20".toList =
      some (specDigitsVal "20".toList * specMult "20".toList % U64) :=
  parse_offset_total_amended.1 "20".toList (by decide) (by decide)

/-- C3 counterexample: the octal specifier `2` followed by 21 zeros has a
non-empty, all-octal-digit substring, yet `parse_offset` fails (its value
is exactly `2 ^ 64`, overflowing `u64`). -/
theorem parse_offset_error_iff_counterexample :
    (specParts "2000000000000000000000".toList).1 ≠ []
    ∧ (specParts "2000000000000000000000".toList).1.all
        (isDigitOf (specParts "2000000000000000000000".toList).2.1) = true
    ∧ parse_offset "2000000000000000000000".toList = none := by
  exact ⟨by decide, by decide, by decide⟩

/-- C3 (amended): `parse_offset` fails exactly when the digit substring
selected by the suffix rules (after the optional leading `+`) is empty,
contains a non-digit of the resolved radix, or denotes a value that does
not fit in `u64`; in particular `b`, `.b` and `xyz` all fail. -/
theorem parse_offset_error_iff_amended :
    (∀ s : List Char,
        parse_offset s = none ↔
          ((specParts s).1 = []
            ∨ (specParts s).1.all (isDigitOf (specParts s).2.1) = false
            ∨ U64 ≤ specDigitsVal s))
    ∧ parse_offset "b".toList = none
    ∧ parse_offset ".b".toList = none
    ∧ parse_offset "xyz".toList = none := by
  refine ⟨?_, by decide, by decide, by decide⟩
  intro s
  rw [parse_offset_eq_spec, Option.map_eq_none']
  exact coreParse_none_iff _ _

/-- C5: the three word encoders group bytes into little-endian 2-byte words
of value `low + 256 * high`; on `[0x34, 0x12]` each renders the word
`0x1234` and decoding the rendered numeral reconstructs it, and a trailing
1-byte word is rendered with high byte 0 in the full word format, not
truncated to a byte form. -/
theorem word_encoders_little_endian :
    (∀ a b w, a < 256 → b < 256 →
        wordVal16 [a, b] = a + 256 * b
        ∧ write_oct_words [a, b] w = " " ++ rjust w (fmtOct6 (a + 256 * b))
        ∧ write_dec_words [a, b] w = " " ++ rjust w (fmtDec5 (a + 256 * b))
        ∧ write_hex_words [a, b] w = " " ++ rjust w (fmtHex4 (a + 256 * b)))
    ∧ (∀ b w, wordVal16 [b] = b
        ∧ write_oct_words [b] w = " " ++ rjust w (fmtOct6 b)
        ∧ write_dec_words [b] w = " " ++ rjust w (fmtDec5 b)
        ∧ write_hex_words [b] w = " " ++ rjust w (fmtHex4 b))
    ∧ wordVal16 [52, 18] = 4660
    ∧ write_oct_words [52, 18] 6 = " 011064"
    ∧ from_str_radix "011064".toList 8 = some 4660
    ∧ write_dec_words [52, 18] 5 = "  4660"
    ∧ from_str_radix "4660".toList 10 = some 4660
    ∧ write_hex_words [52, 18] 4 = " 1234"
    ∧ from_str_radix "1234".toList 16 = some 4660 := by
  refine ⟨?_, ?_, by decide, by decide, by decide, by decide, by decide,
    by decide, by decide⟩
  · intro a b w ha _
    have hv := wordVal16_pair a b ha
    refine ⟨hv, ?_, ?_, ?_⟩
    · show String.join [writeWord fmtOct6 w [a, b]] = _
      rw [join_singleton]
      show " " ++ rjust w (fmtOct6 (wordVal16 [a, b])) = _
      rw [hv]
    · show String.join [writeWord fmtDec5 w [a, b]] = _
      rw [join_singleton]
      show " " ++ rjust w (fmtDec5 (wordVal16 [a, b])) = _
      rw [hv]
    · show String.join [writeWord fmtHex4 w [a, b]] = _
      rw [join_singleton]
      show " " ++ rjust w (fmtHex4 (wordVal16 [a, b])) = _
      rw [hv]
  · intro b w
    refine ⟨rfl, ?_, ?_, ?_⟩
    · show String.join [writeWord fmtOct6 w [b]] = _
      rw [join_singleton]
      rfl
    · show String.join [writeWord fmtDec5 w [b]] = _
      rw [join_singleton]
      rfl
    · show String.join [writeWord fmtHex4 w [b]] = _
      rw [join_singleton]
      rfl

/-- Witness for C5 at the pair `[0x34, 0x12]` and width 9. -/
theorem word_encoders_little_endian_witness :
    wordVal16 [52, 18] = 52 + 256 * 18
    ∧ write_oct_words [52, 18] 9 = " " ++ rjust 9 (fmtOct6 (52 + 256 * 18)) := by
  have h := word_encoders_little_endian.1 52 18 9 (by decide) (by decide)
  exact ⟨h.1, h.2.1⟩

set_option maxRecDepth 8192 in
/-- C6: `AsciiChars` renders each byte independently in an equal-width
(4-character, separator included) cell: bytes 7-13 as the escapes
`\g \b \t \n \v \f \r`, printables 32-126 as the literal character
right-aligned, and all other bytes as 3-digit zero-padded octal; byte 10
renders as `\n`, byte 65 as `A`, byte 200 as octal `310`. -/
theorem ascii_chars_cells :
    write_ascii_char 10 = "  \\n"
    ∧ write_ascii_char 65 = "   A"
    ∧ write_ascii_char 200 = " 310"
    ∧ write_ascii_char 7 = "  \\g" ∧ write_ascii_char 8 = "  \\b"
    ∧ write_ascii_char 9 = "  \\t" ∧ write_ascii_char 11 = "  \\v"
    ∧ write_ascii_char 12 = "  \\f" ∧ write_ascii_char 13 = "  \\r"
    ∧ (∀ b, b < 256 → (write_ascii_char b).length = 4)
    ∧ (∀ b, b < 256 → 32 ≤ b ∧ b ≤ 126 →
        write_ascii_char b = "   " ++ String.singleton (Char.ofNat b))
    ∧ (∀ b, b < 256 → ¬(32 ≤ b ∧ b ≤ 126) → ¬(7 ≤ b ∧ b ≤ 13) →
        write_ascii_char b = " " ++ octPad3 b) := by
  refine ⟨by decide, by decide, by decide, by decide, by decide, by decide,
    by decide, by decide, by decide, by decide, by decide, by decide⟩

/-- Witness for C6 at byte 0. -/
theorem ascii_chars_cells_witness : (write_ascii_char 0).length = 4 :=
  ascii_chars_cells.2.2.2.2.2.2.2.2.2.1 0 (by decide)

end OdSpec

example : OdSpec.parse_offset "100".toList = some 64 := by decide
example : OdSpec.parse_offset "100.".toList = some 100 := by decide
example : OdSpec.parse_offset "100b".toList = some (64 * 512) := by decide
example : OdSpec.parse_offset "100.b".toList = some (100 * 512) := by decide
example : OdSpec.parse_offset "b".toList = none := by decide
example : OdSpec.parse_offset ".b".toList = none := by decide
example : OdSpec.parse_offset "xyz".toList = none := by decide
example : OdSpec.parse_offset "+100".toList = some 64 := by decide
example : OdSpec.write_oct_words [52, 18] 6 = " 011064" := by decide
example : OdSpec.write_dec_words [52, 18] 5 = "  4660" := by decide
example : OdSpec.write_hex_words [52, 18] 4 = " 1234" := by decide
example : OdSpec.write_ascii_char 10 = "  \\n" := by decide
example : OdSpec.write_ascii_char 65 = "   A" := by decide
example : OdSpec.write_ascii_char 200 = " 310" := by decide
example : OdSpec.odLines (List.replicate 20 0) 0 [OdSpec.Fmt.OctalWords] 6 =
    ["0000000 000000 000000 000000 000000 000000 000000 000000 000000",
     "0000020 000000 000000",
     "0000040"] := by decide
example : OdSpec.specGrammar "100.b".toList = true := by decide
example : OdSpec.specGrammar ".b".toList = false := by decide
example : OdSpec.specDigitsVal "100.b".toList = 100 := by decide
